import Mathlib

/-!
Verification of the poker dataset generator (`src/py/genset.py`).

Cards are modelled by their deck ordinal `c ∈ [0, 52)`: the Python code keys
cards by two-character symbols and converts through the fixed bijections
`DECKIDX` (symbol → ordinal) and `LOOKUP` (symbol → packed integer); since
`DECK`/`DECKIDX` is a fixed bijection we work with ordinals directly, and
`LOOKUP c` below is the packed integer `_DECK[c]` of the card with ordinal `c`
(rank `c / 4`, suit `c % 4`, matching `itertools.product(range(13), range(4))`).

The four perfect-hash support tables (module `poker_data`) are an externally
supplied, immutable data resource that is not part of this repository's source;
they are modelled as an abstract record of table-lookup functions `PokerData`.
-/

namespace Genset

/-- `_SUITS[i] = 1 << (i + 12)`. -/
def suitBit (i : Nat) : Nat := 1 <<< (i + 12)

/-- `_RANKS[i] = (1 << (i + 16)) | (i << 8)`. -/
def rankBits (i : Nat) : Nat := (1 <<< (i + 16)) ||| (i <<< 8)

/-- `_PRIMES = [2, 3, 5, 7, 11, 13, 17, 19, 23, 29, 31, 37, 41]`. -/
def primesList : List Nat := [2, 3, 5, 7, 11, 13, 17, 19, 23, 29, 31, 37, 41]

/-- The prime assigned to rank `i`. -/
def prime (i : Nat) : Nat := primesList.getD i 0

/-- `LOOKUP[DECK[c]] = _DECK[c] = _RANKS[rank] | _SUITS[suit] | _PRIMES[rank]`
with `rank = c / 4`, `suit = c % 4`. -/
def LOOKUP (c : Nat) : Nat := rankBits (c / 4) ||| suitBit (c % 4) ||| prime (c / 4)

/-- The externally supplied perfect-hash tables of module `poker_data`,
modelled as abstract lookup functions. -/
structure PokerData where
  FLUSHES : Nat → Nat
  UNIQUE_5 : Nat → Nat
  HASH_ADJUST : Nat → Nat
  HASH_VALUES : Nat → Nat

/-- The index computation inside `hash_function` (everything up to and
including the `& 0x1fff` mask that produces `r`), transcribed line by line;
`hash_function` below applies the final `HASH_VALUES` lookup to it.
Only the add-shifted-self step (`x += x << 8`) is masked to 32 bits. -/
def hash_index (t : PokerData) (x0 : Nat) : Nat :=
  let x1 := x0 + 0xe91aaa35
  let x2 := x1 ^^^ (x1 >>> 16)
  let x3 := x2 + (x2 <<< 8)
  let x4 := x3 &&& 0xffffffff
  let x5 := x4 ^^^ (x4 >>> 4)
  let b := (x5 >>> 8) &&& 0x1ff
  let a := (x5 + (x5 <<< 2)) >>> 19
  (a ^^^ t.HASH_ADJUST b) &&& 0x1fff

/-- `hash_function(x) = HASH_VALUES[r]` with `r = hash_index x`. -/
def hash_function (t : PokerData) (x0 : Nat) : Nat :=
  t.HASH_VALUES (hash_index t x0)

/-- The same sequence of operations as `hash_index`, but performed in
wrapping 32-bit arithmetic at every step (each intermediate reduced
`% 2^32`).  This is the comparison point for the masking claim. -/
def hash_index32 (t : PokerData) (x0 : Nat) : Nat :=
  let x1 := (x0 + 0xe91aaa35) % 2 ^ 32
  let x2 := (x1 ^^^ (x1 >>> 16)) % 2 ^ 32
  let x3 := (x2 + ((x2 <<< 8) % 2 ^ 32)) % 2 ^ 32
  let x4 := x3 &&& 0xffffffff
  let x5 := (x4 ^^^ (x4 >>> 4)) % 2 ^ 32
  let b := (x5 >>> 8) &&& 0x1ff
  let a := ((x5 + ((x5 <<< 2) % 2 ^ 32)) % 2 ^ 32) >>> 19
  ((a ^^^ t.HASH_ADJUST b) % 2 ^ 32) &&& 0x1fff

/-- Fully wrapping-32-bit counterpart of `hash_function`. -/
def hash_function32 (t : PokerData) (x0 : Nat) : Nat :=
  t.HASH_VALUES (hash_index32 t x0)

/-- The prime-product argument that `eval5` passes to `hash_function`:
`(c1 & 0xff) * (c2 & 0xff) * (c3 & 0xff) * (c4 & 0xff) * (c5 & 0xff)`. -/
def primeProduct (c1 c2 c3 c4 c5 : Nat) : Nat :=
  ((((c1 &&& 0xff) * (c2 &&& 0xff)) * (c3 &&& 0xff)) * (c4 &&& 0xff)) * (c5 &&& 0xff)

/-- `eval5`, transcribed from the source.  The hand is given by card
ordinals; `hand.map LOOKUP` is the tuple `(LOOKUP[x] for x in hand)`.
Python's 5-way tuple unpacking raises unless the hand has exactly 5 cards;
the catch-all arm (out of the function's domain) returns the junk value 0. -/
def eval5 (t : PokerData) (hand : List Nat) : Nat :=
  match hand.map LOOKUP with
  | [c1, c2, c3, c4, c5] =>
    let q := (c1 ||| c2 ||| c3 ||| c4 ||| c5) >>> 16
    if 0xf000 &&& c1 &&& c2 &&& c3 &&& c4 &&& c5 ≠ 0 then
      t.FLUSHES q
    else
      let s := t.UNIQUE_5 q
      if s ≠ 0 then s
      else hash_function t (primeProduct c1 c2 c3 c4 c5)
  | _ => 0

/-- The claim's own description of `eval5` (for the refinement comparison):
return the flush-table entry keyed by the OR'd rank bits exactly when the
bitwise AND of all five cards' suit-flag nibble (mask `0xF000`) is nonzero;
otherwise the unique-ranks-table entry for the same key when it is nonzero;
otherwise the perfect-hash lookup applied to the product of the five cards'
prime fields. -/
def eval5_spec (t : PokerData) (hand : List Nat) : Nat :=
  match hand.map LOOKUP with
  | [c1, c2, c3, c4, c5] =>
    let rankKey := (c1 ||| c2 ||| c3 ||| c4 ||| c5) >>> 16
    if (c1 &&& c2 &&& c3 &&& c4 &&& c5) &&& 0xf000 ≠ 0 then
      t.FLUSHES rankKey
    else if t.UNIQUE_5 rankKey ≠ 0 then
      t.UNIQUE_5 rankKey
    else
      hash_function t (primeProduct c1 c2 c3 c4 c5)
  | _ => 0

/-- `itertools.combinations(l, k)`: all `k`-element subsequences of `l`,
in the order itertools emits them (lexicographic in positions). -/
def combinations {α : Type} : Nat → List α → List (List α)
  | 0, _ => [[]]
  | _ + 1, [] => []
  | k + 1, x :: xs => ((combinations k xs).map (x :: ·)) ++ combinations (k + 1) xs

/-- `eval7`: `min(eval5(x) for x in itertools.combinations(hand, 5))`.
Python's `min` raises on an empty iterable, hence the `Option`. -/
def eval7 (t : PokerData) (hand : List Nat) : Option Nat :=
  ((combinations 5 hand).map (eval5 t)).min?

/-- `hand_to_index`: `v = tuple(enumerate(sorted(x)))`, then
`sum(comb(j, i+1) for i, j in v[::-1])`. -/
def hand_to_index (x : List Nat) : Nat :=
  let v := (List.insertionSort (· ≤ ·) x).enum
  ((v.reverse).map (fun p => Nat.choose p.2 (p.1 + 1))).sum

/-- Index of a strictly decreasing card list (the summation of
`hand_to_index` read from the strongest position down): the element at
distance `j` from the end contributes `C(element, j + 1)`. -/
def idxD : List Nat → Nat
  | [] => 0
  | c :: rest => Nat.choose c (rest.length + 1) + idxD rest

/-- Largest `c ≤ bound` with `C(c, k) ≤ v` (for `k ≥ 1` the scan always
succeeds because `C(0, k) = 0`). -/
def searchC (k v : Nat) : Nat → Nat
  | 0 => 0
  | b + 1 => if Nat.choose (b + 1) k ≤ v then b + 1 else searchC k v b

/-- Greedy binomial decomposition: the strictly decreasing `k`-element list
whose `idxD` is `v`, searching elements downward from `bound`. -/
def unrank : Nat → Nat → Nat → List Nat
  | 0, _, _ => []
  | k + 1, v, bound =>
    let c := searchC (k + 1) v bound
    c :: unrank k (v - Nat.choose c (k + 1)) (c - 1)

/-- Modelled from the spec: the repository has no `fromIndex` in its source
(§4.3 only requires that the inverse of `toIndex` "must exist as a
correctness check"), so the inverse is realised here by the standard greedy
decomposition of the combinatorial number system: repeatedly take the
largest `c` with `C(c, k) ≤ v`, then recurse on `v - C(c, k)` with `k - 1`.
The result is returned weakest-first, matching `hand_to_index`'s sorted
input convention, for `k = 5` subsets of the 52-card deck. -/
def fromIndex (v : Nat) : List Nat := (unrank 5 v 51).reverse

/-- The first loop of `main`: for each `hand` in
`itertools.combinations(DECK, 5)` (in ordinal form, `combinations 5
(List.range 52)`), store `offsets[hand_to_index(z)] = (z, eval5(hand))`
with `z = sorted(DECKIDX[_] for _ in hand)`.  All keys turn out distinct
(proved below), so the dict is this association list; Python dicts preserve
insertion order, so `offsets.values()` is `offsetsList.map (·.2)` and
`offsets.keys()` is `offsetsList.map (·.1)`. -/
def offsetsList (t : PokerData) : List (Nat × List Nat × Nat) :=
  (combinations 5 (List.range 52)).map fun hand =>
    let z := List.insertionSort (· ≤ ·) hand
    (hand_to_index z, z, eval5 t hand)

/-- `struct.pack('<H', s)`: the two little-endian bytes of `s`, on the
domain `s < 2^16` where `pack` succeeds. -/
def packU16 (s : Nat) : List Nat := [s % 256, s / 256]

/-- `sorted(offsets.keys())`. -/
def sortedKeys (t : PokerData) : List Nat :=
  List.insertionSort (· ≤ ·) ((offsetsList t).map (·.1))

/-- The 7-byte leaf entry written for key `k`:
`bytes(z) + struct.pack('<H', score)` where `(z, score) = offsets[k]`
(the `none` arm is Python's `KeyError`, unreachable for keys of the dict). -/
def leafRecord (t : PokerData) (k : Nat) : List Nat :=
  match (offsetsList t).lookup k with
  | some (z, score) => z ++ packU16 score
  | none => []

/-- The leaf entries in the order they are written (ascending key order). -/
def leafRecords (t : PokerData) : List (List Nat) :=
  (sortedKeys t).map (leafRecord t)

/-- The full byte content of `scores.leaf`. -/
def leafData (t : PokerData) : List Nat := (leafRecords t).flatten

/-- One step of the inner pre-flop scan over `offsets.values()`: state
`(la, lb, lc, ld)` is (score sum, match count, running min, running max),
updated exactly as the loop body does when `h0 in z and h1 in z`. -/
def preflopStep (h0 h1 : Nat) (st : Nat × Nat × Nat × Nat) (e : List Nat × Nat) :
    Nat × Nat × Nat × Nat :=
  if h0 ∈ e.1 ∧ h1 ∈ e.1 then
    (st.1 + e.2, st.2.1 + 1,
      if e.2 < st.2.2.1 then e.2 else st.2.2.1,
      if e.2 > st.2.2.2 then e.2 else st.2.2.2)
  else st

/-- The inner scan of the pre-flop loop for hole cards `(h0, h1)`, starting
from `la, lb, lc, ld = 0, 0, 0xFFFFFF, 0`. -/
def preflopScan (t : PokerData) (h0 h1 : Nat) : Nat × Nat × Nat × Nat :=
  ((offsetsList t).map (·.2)).foldl (preflopStep h0 h1) (0, 0, 0xFFFFFF, 0)

/-- `ceil(la / lb)` (`math.ceil` of the division; exact for these operand
sizes, where the float quotient can never round across an integer). -/
def ceilDiv (a b : Nat) : Nat := (a + b - 1) / b

/-- The pre-flop dict: for each `(h0, h1)` in
`itertools.combinations(DECKIDX.values(), 2)`,
`preflop[hand_to_index((h0,h1))] = (lc, ld, ceil(la/lb), h0, h1)`.
The catch-all arm is unreachable: `combinations 2` yields 2-element lists. -/
def preflopList (t : PokerData) : List (Nat × Nat × Nat × Nat × Nat × Nat) :=
  (combinations 2 (List.range 52)).map fun pr =>
    match pr with
    | [h0, h1] =>
      let r := preflopScan t h0 h1
      (hand_to_index [h0, h1], r.2.2.1, r.2.2.2, ceilDiv r.1 r.2.1, h0, h1)
    | _ => (0, 0, 0, 0, 0, 0)

/-- `sorted(preflop.keys())`. -/
def preflopSortedKeys (t : PokerData) : List Nat :=
  List.insertionSort (· ≤ ·) ((preflopList t).map (·.1))

/-- The 8-byte record written for pre-flop key `k`:
`bytes([d, e]) + pack('<H', a) + pack('<H', b) + pack('<H', c)` where
`(a, b, c, d, e) = preflop[k]` is (min, max, ceil-mean, h0, h1). -/
def preflopRecord (t : PokerData) (k : Nat) : List Nat :=
  match (preflopList t).lookup k with
  | some (a, b, c, d, e) => [d, e] ++ packU16 a ++ packU16 b ++ packU16 c
  | none => []

/-- The full byte content of `scores.preflop` (ascending key order). -/
def preflopData (t : PokerData) : List Nat :=
  ((preflopSortedKeys t).map (preflopRecord t)).flatten

/-- The scores of all evaluated 5-card hands whose key contains both hole
cards — the subset the pre-flop scan aggregates over. -/
def matchScores (t : PokerData) (h0 h1 : Nat) : List Nat :=
  (((offsetsList t).map (·.2)).filter (fun e => h0 ∈ e.1 ∧ h1 ∈ e.1)).map (·.2)

/-- `bytes([level] * 32)`: the fixed 32-byte filler paired with the last
node of an odd-width level (faithful for `level < 256`, the domain of
`bytes`; the tree here has about 21 levels). -/
def filler (level : Nat) : List Nat := List.replicate 32 level

/-- One pass of the tree loop body over the current level: hash adjacent
pairs left to right; a final unpaired node is hashed with `filler level`.
`H` abstracts `sha256(·).digest()` on byte strings. -/
def pairUp (H : List Nat → List Nat) (level : Nat) : List (List Nat) → List (List Nat)
  | [] => []
  | [x] => [H (x ++ filler level)]
  | x :: y :: rest => H (x ++ y) :: pairUp H level rest

/-- The `while len(merkle_level) != 1` loop, with an explicit fuel bound on
the number of iterations (each iteration at least halves a width-≥-2 level,
so `width + 1` iterations always suffice — proved below); `none` models a
run that never reaches width 1 (empty input). -/
def rootLoop (H : List Nat → List Nat) : Nat → Nat → List (List Nat) → Option (List Nat)
  | 0, _, _ => none
  | _ + 1, _, [x] => some x
  | _ + 1, _, [] => none
  | fuel + 1, level, x :: y :: rest => rootLoop H fuel (level + 1) (pairUp H level (x :: y :: rest))

/-- The Merkle root (`merkle_level[0]` after the loop), starting at level 0. -/
def merkleRoot (H : List Nat → List Nat) (leaves : List (List Nat)) : Option (List Nat) :=
  rootLoop H (leaves.length + 1) 0 leaves

/-- The leaf digests: `sha256(entry).digest()` for each written entry. -/
def merkleLeaves (H : List Nat → List Nat) (t : PokerData) : List (List Nat) :=
  (leafRecords t).map H

/-- All four tables return 16-bit values (the externally supplied data has
2-byte scores; `struct.pack('<H', ·)` requires this). -/
def tables16 (t : PokerData) : Prop :=
  (∀ q, t.FLUSHES q < 65536) ∧ (∀ q, t.UNIQUE_5 q < 65536) ∧ (∀ r, t.HASH_VALUES r < 65536)

/-- All tables return genuine hand scores in `[1, 7462]` on the keys the
evaluator can reach (the externally supplied data's score range). -/
def tablesScoreRange (t : PokerData) : Prop :=
  (∀ q, 1 ≤ t.FLUSHES q ∧ t.FLUSHES q ≤ 7462) ∧
  (∀ q, t.UNIQUE_5 q ≠ 0 → 1 ≤ t.UNIQUE_5 q ∧ t.UNIQUE_5 q ≤ 7462) ∧
  (∀ r, 1 ≤ t.HASH_VALUES r ∧ t.HASH_VALUES r ≤ 7462)

/-! ### Basic facts about `combinations` -/

theorem mem_combinations {α : Type} : ∀ {k : Nat} {l y : List α},
    y ∈ combinations k l ↔ y.Sublist l ∧ y.length = k
  | 0, l, y => by
    simp only [combinations, List.mem_singleton]
    constructor
    · rintro rfl; exact ⟨List.nil_sublist l, rfl⟩
    · rintro ⟨_, hy⟩; exact List.length_eq_zero.mp hy
  | k + 1, [], y => by
    simp only [combinations, List.not_mem_nil, false_iff, not_and]
    intro hs
    rw [List.sublist_nil.mp hs]
    simp
  | k + 1, x :: xs, y => by
    simp only [combinations, List.mem_append, List.mem_map]
    constructor
    · rintro (⟨y', hy', rfl⟩ | hy)
      · obtain ⟨hs, hl⟩ := mem_combinations.mp hy'
        exact ⟨List.cons_sublist_cons.mpr hs, by simp [hl]⟩
      · obtain ⟨hs, hl⟩ := mem_combinations.mp hy
        exact ⟨hs.cons x, hl⟩
    · rintro ⟨hs, hl⟩
      rcases List.sublist_cons_iff.mp hs with h | ⟨r, rfl, hr⟩
      · exact Or.inr (mem_combinations.mpr ⟨h, hl⟩)
      · exact Or.inl ⟨r, mem_combinations.mpr ⟨hr, by simpa using hl⟩, rfl⟩

theorem length_combinations {α : Type} : ∀ (k : Nat) (l : List α),
    (combinations k l).length = Nat.choose l.length k
  | 0, l => by simp [combinations]
  | k + 1, [] => by simp [combinations]
  | k + 1, x :: xs => by
    simp only [combinations, List.length_append, List.length_map,
      length_combinations k xs, length_combinations (k + 1) xs, List.length_cons]
    rw [Nat.choose_succ_succ']

theorem nodup_combinations {α : Type} : ∀ (k : Nat) {l : List α},
    l.Nodup → (combinations k l).Nodup
  | 0, l, _ => by simp [combinations]
  | k + 1, [], _ => by simp [combinations]
  | k + 1, x :: xs, h => by
    obtain ⟨hx, hxs⟩ := List.nodup_cons.mp h
    refine List.Nodup.append ?_ (nodup_combinations (k + 1) hxs) ?_
    · exact (nodup_combinations k hxs).map fun a b hab => by
        simpa using hab
    · intro y hy hy'
      obtain ⟨y', _, rfl⟩ := List.mem_map.mp hy
      have hs : (x :: y').Sublist xs := (mem_combinations.mp hy').1
      exact hx (hs.subset (List.mem_cons_self x y'))

/-- A strictly sorted list is a sublist of any strictly sorted list
containing its elements. -/
theorem sublist_of_sorted_subset : ∀ {L l : List Nat}, l.Sorted (· < ·) →
    L.Sorted (· < ·) → (∀ x ∈ l, x ∈ L) → l.Sublist L
  | [], l, _, _, hsub => by
    cases l with
    | nil => exact List.Sublist.refl []
    | cons a t => exact absurd (hsub a (List.mem_cons_self a t)) (List.not_mem_nil a)
  | b :: L', l, hl, hL, hsub => by
    cases l with
    | nil => exact List.nil_sublist _
    | cons a t =>
      obtain ⟨hab, ht⟩ := List.pairwise_cons.mp hl
      obtain ⟨hbL, hL'⟩ := List.pairwise_cons.mp hL
      rcases List.mem_cons.mp (hsub a (List.mem_cons_self a t)) with rfl | haL'
      · refine List.cons_sublist_cons.mpr (sublist_of_sorted_subset ht hL' ?_)
        intro x hx
        have hax : a < x := hab x hx
        rcases List.mem_cons.mp (hsub x (List.mem_cons.mpr (Or.inr hx))) with rfl | h
        · exact absurd hax (lt_irrefl x)
        · exact h
      · have hba : b < a := hbL a haL'
        refine (sublist_of_sorted_subset hl hL' ?_).cons b
        intro x hx
        rcases List.mem_cons.mp (hsub x hx) with rfl | h
        · rcases List.mem_cons.mp hx with rfl | hxt
          · exact absurd hba (lt_irrefl x)
          · exact absurd (lt_trans hba (hab x hxt)) (lt_irrefl x)
        · exact h

/-! ### The combinatorial number system: `hand_to_index` and its inverse -/

theorem enum_sum_eq_idxD : ∀ l : List Nat,
    ((l.enum.reverse).map (fun p => Nat.choose p.2 (p.1 + 1))).sum = idxD l.reverse := by
  intro l
  induction l using List.reverseRecOn with
  | nil => simp [idxD]
  | append_singleton l a ih =>
    rw [List.enum_append]
    simp only [List.sum_reverse, List.map_reverse] at ih ⊢
    simp [idxD, List.reverse_append, ih]
    omega

theorem hand_to_index_sorted {z : List Nat} (h : z.Sorted (· ≤ ·)) :
    hand_to_index z = idxD z.reverse := by
  unfold hand_to_index
  rw [h.insertionSort_eq]
  exact enum_sum_eq_idxD z

theorem idxD_lt : ∀ {d : List Nat} {m : Nat}, d.Sorted (· > ·) →
    (∀ x ∈ d, x < m) → idxD d < Nat.choose m d.length
  | [], m, _, _ => by simp [idxD]
  | c :: rest, m, hs, hb => by
    obtain ⟨hc, hrest⟩ := List.pairwise_cons.mp hs
    have ih : idxD rest < Nat.choose c rest.length :=
      idxD_lt hrest (fun x hx => hc x hx)
    have hcm : c + 1 ≤ m := hb c (List.mem_cons_self c rest)
    calc idxD (c :: rest) = Nat.choose c (rest.length + 1) + idxD rest := rfl
      _ < Nat.choose c (rest.length + 1) + Nat.choose c rest.length := by omega
      _ = Nat.choose (c + 1) (rest.length + 1) := by rw [Nat.choose_succ_succ']; omega
      _ ≤ Nat.choose m (c :: rest).length := Nat.choose_le_choose _ hcm

theorem searchC_spec : ∀ {k v : Nat} (b : Nat), 0 < k → v < Nat.choose (b + 1) k →
    searchC k v b ≤ b ∧ Nat.choose (searchC k v b) k ≤ v ∧
      v < Nat.choose (searchC k v b + 1) k
  | k, v, 0, hk, hv => by
    refine ⟨le_refl 0, ?_, ?_⟩
    · rw [searchC, Nat.choose_eq_zero_of_lt hk]
      exact Nat.zero_le v
    · rw [searchC]; exact hv
  | k, v, b + 1, hk, hv => by
    by_cases hcase : Nat.choose (b + 1) k ≤ v
    · rw [searchC, if_pos hcase]
      exact ⟨le_refl _, hcase, hv⟩
    · rw [searchC, if_neg hcase]
      have h := searchC_spec (v := v) b hk (by omega)
      exact ⟨Nat.le_succ_of_le h.1, h.2.1, h.2.2⟩

theorem unrank_spec : ∀ (k : Nat) {v bound : Nat}, v < Nat.choose (bound + 1) k →
    (unrank k v bound).length = k ∧ (unrank k v bound).Sorted (· > ·) ∧
      (∀ x ∈ unrank k v bound, x ≤ bound) ∧ idxD (unrank k v bound) = v
  | 0, v, bound, hv => by
    rw [Nat.choose_zero_right] at hv
    interval_cases v
    exact ⟨rfl, List.sorted_nil, by simp [unrank], by simp [unrank, idxD]⟩
  | k + 1, v, bound, hv => by
    obtain ⟨hcb, h1', h2'⟩ := searchC_spec bound (by omega : 0 < k + 1) hv
    set c := searchC (k + 1) v bound with hcdef
    have h1 : Nat.choose c (k + 1) ≤ v := h1'
    have h2 : v < Nat.choose (c + 1) (k + 1) := h2'
    have hpascal : Nat.choose (c + 1) (k + 1) = Nat.choose c k + Nat.choose c (k + 1) :=
      Nat.choose_succ_succ' c k
    have hle : Nat.choose c k ≤ Nat.choose (c - 1 + 1) k :=
      Nat.choose_le_choose _ (by omega)
    have hv' : v - Nat.choose c (k + 1) < Nat.choose ((c - 1) + 1) k := by omega
    obtain ⟨ihlen, ihsort, ihbound, ihidx⟩ := unrank_spec k hv'
    have hcpos : ∀ x ∈ unrank k (v - Nat.choose c (k + 1)) (c - 1), x < c := by
      intro x hx
      have hk1 : 1 ≤ k := by
        rcases Nat.eq_zero_or_pos k with hk0 | hk1
        · subst hk0
          rw [List.length_eq_zero.mp ihlen] at hx
          exact absurd hx (List.not_mem_nil x)
        · exact hk1
      have hc1 : 1 ≤ c := by
        by_contra hc0
        have hc00 : c = 0 := by omega
        have hz : Nat.choose (0 + 1) (k + 1) = 0 :=
          Nat.choose_eq_zero_of_lt (by omega)
        rw [hc00] at h2
        omega
      have := ihbound x hx
      omega
    have hunfold : unrank (k + 1) v bound =
        c :: unrank k (v - Nat.choose c (k + 1)) (c - 1) := by
      rw [hcdef]
      simp only [unrank]
    rw [hunfold]
    refine ⟨?_, ?_, ?_, ?_⟩
    · simp [ihlen]
    · exact List.pairwise_cons.mpr ⟨hcpos, ihsort⟩
    · intro x hx
      rcases List.mem_cons.mp hx with rfl | hx'
      · exact hcb
      · have := ihbound x hx'
        omega
    · show Nat.choose c ((unrank k (v - Nat.choose c (k + 1)) (c - 1)).length + 1) +
        idxD (unrank k (v - Nat.choose c (k + 1)) (c - 1)) = v
      rw [ihlen, ihidx]
      omega

theorem unrank_idxD : ∀ {d : List Nat}, d.Sorted (· > ·) → ∀ {bound : Nat},
    (∀ x ∈ d, x ≤ bound) → unrank d.length (idxD d) bound = d
  | [], _, bound, _ => rfl
  | c :: rest, hs, bound, hb => by
    obtain ⟨hc, hrest⟩ := List.pairwise_cons.mp hs
    have hrest_lt : idxD rest < Nat.choose c rest.length :=
      idxD_lt hrest (fun x hx => hc x hx)
    have hidx : idxD (c :: rest) = Nat.choose c (rest.length + 1) + idxD rest := rfl
    have hpascal : Nat.choose (c + 1) (rest.length + 1) =
        Nat.choose c rest.length + Nat.choose c (rest.length + 1) :=
      Nat.choose_succ_succ' c rest.length
    have h2 : idxD (c :: rest) < Nat.choose (c + 1) (rest.length + 1) := by omega
    have hvb : idxD (c :: rest) < Nat.choose (bound + 1) (rest.length + 1) := by
      have h := idxD_lt hs (m := bound + 1) (fun x hx => by
        have := hb x hx; omega)
      simpa using h
    obtain ⟨hcb', g1', g2'⟩ :=
      searchC_spec (k := rest.length + 1) bound (by omega) hvb
    set s := searchC (rest.length + 1) (idxD (c :: rest)) bound with hsdef
    have g1 : Nat.choose s (rest.length + 1) ≤ idxD (c :: rest) := g1'
    have g2 : idxD (c :: rest) < Nat.choose (s + 1) (rest.length + 1) := g2'
    have hceq : s = c := by
      rcases lt_trichotomy s c with h | h | h
      · have hmono : Nat.choose (s + 1) (rest.length + 1) ≤
            Nat.choose c (rest.length + 1) := Nat.choose_le_choose _ (by omega)
        omega
      · exact h
      · have hmono : Nat.choose (c + 1) (rest.length + 1) ≤
            Nat.choose s (rest.length + 1) := Nat.choose_le_choose _ (by omega)
        omega
    have hunfold : unrank (c :: rest).length (idxD (c :: rest)) bound =
        s :: unrank rest.length
          (idxD (c :: rest) - Nat.choose s (rest.length + 1)) (s - 1) := by
      rw [hsdef]
      simp only [List.length_cons, unrank]
    rw [hunfold, hceq]
    have harg : idxD (c :: rest) - Nat.choose c (rest.length + 1) = idxD rest := by
      omega
    rw [harg]
    have ih : unrank rest.length (idxD rest) (c - 1) = rest :=
      unrank_idxD hrest (fun x hx => by have := hc x hx; omega)
    rw [ih]

/-- Upper bound: a sorted `k`-subset of `[0, n)` indexes below `C(n, k)`. -/
theorem hand_to_index_lt {z : List Nat} {n k : Nat} (hs : z.Sorted (· < ·))
    (hlen : z.length = k) (hb : ∀ x ∈ z, x < n) :
    hand_to_index z < Nat.choose n k := by
  rw [hand_to_index_sorted hs.le_of_lt]
  have hrev : z.reverse.Sorted (· > ·) := List.pairwise_reverse.mpr hs
  have := idxD_lt hrev (m := n) (fun x hx => hb x (List.mem_reverse.mp hx))
  rwa [List.length_reverse, hlen] at this

/-- Injectivity of `hand_to_index` on sorted `k`-subsets of `[0, n)`. -/
theorem hand_to_index_inj {z z' : List Nat} {n k : Nat} (hs : z.Sorted (· < ·))
    (hs' : z'.Sorted (· < ·)) (hlen : z.length = k) (hlen' : z'.length = k)
    (hb : ∀ x ∈ z, x < n) (hb' : ∀ x ∈ z', x < n)
    (heq : hand_to_index z = hand_to_index z') : z = z' := by
  have hrev : z.reverse.Sorted (· > ·) := List.pairwise_reverse.mpr hs
  have hrev' : z'.reverse.Sorted (· > ·) := List.pairwise_reverse.mpr hs'
  have h1 : unrank z.reverse.length (idxD z.reverse) (n - 1) = z.reverse :=
    unrank_idxD hrev (fun x hx => by
      have := hb x (List.mem_reverse.mp hx); omega)
  have h2 : unrank z'.reverse.length (idxD z'.reverse) (n - 1) = z'.reverse :=
    unrank_idxD hrev' (fun x hx => by
      have := hb' x (List.mem_reverse.mp hx); omega)
  rw [hand_to_index_sorted hs.le_of_lt, hand_to_index_sorted hs'.le_of_lt] at heq
  rw [List.length_reverse, hlen] at h1
  rw [List.length_reverse, hlen'] at h2
  have : z.reverse = z'.reverse := by rw [← h1, ← h2, heq]
  simpa using congrArg List.reverse this

/-- Surjectivity: every index below `C(n, k)` is attained by a sorted
`k`-subset of `[0, n)`. -/
theorem hand_to_index_surj {n k v : Nat} (hk : 0 < k) (hv : v < Nat.choose n k) :
    ∃ z : List Nat, z.Sorted (· < ·) ∧ z.length = k ∧ (∀ x ∈ z, x < n) ∧
      hand_to_index z = v := by
  rcases Nat.eq_zero_or_pos n with rfl | hn
  · rw [Nat.choose_eq_zero_of_lt hk] at hv
    omega
  have hv' : v < Nat.choose ((n - 1) + 1) k := by
    have h : n - 1 + 1 = n := by omega
    rwa [h]
  obtain ⟨hlen, hsort, hbound, hidx⟩ := unrank_spec k hv'
  have hzs : (unrank k v (n - 1)).reverse.Sorted (· < ·) :=
    List.pairwise_reverse.mpr hsort
  refine ⟨(unrank k v (n - 1)).reverse, hzs, ?_, ?_, ?_⟩
  · simpa using hlen
  · intro x hx
    have := hbound x (List.mem_reverse.mp hx)
    omega
  · rw [hand_to_index_sorted hzs.le_of_lt, List.reverse_reverse, hidx]

/-! ### The evaluated 5-card dataset and its keys -/

theorem choose_52_5 : Nat.choose 52 5 = 2598960 := by
  rw [Nat.choose_eq_descFactorial_div_factorial]; decide

theorem choose_52_2 : Nat.choose 52 2 = 1326 := by
  rw [Nat.choose_eq_descFactorial_div_factorial]; decide

theorem choose_50_3 : Nat.choose 50 3 = 19600 := by
  rw [Nat.choose_eq_descFactorial_div_factorial]; decide

theorem mem_combinations_range {k n : Nat} {hand : List Nat}
    (h : hand ∈ combinations k (List.range n)) :
    hand.Sorted (· < ·) ∧ hand.length = k ∧ (∀ x ∈ hand, x < n) := by
  obtain ⟨hs, hl⟩ := mem_combinations.mp h
  refine ⟨List.Pairwise.sublist hs (List.pairwise_lt_range n), hl, ?_⟩
  intro x hx
  exact List.mem_range.mp (hs.subset hx)

theorem combinations_range_of_sorted {k n : Nat} {z : List Nat}
    (hs : z.Sorted (· < ·)) (hl : z.length = k) (hb : ∀ x ∈ z, x < n) :
    z ∈ combinations k (List.range n) :=
  mem_combinations.mpr
    ⟨sublist_of_sorted_subset hs (List.pairwise_lt_range n)
      (fun x hx => List.mem_range.mpr (hb x hx)), hl⟩

theorem offsetsList_map (t : PokerData) :
    offsetsList t = (combinations 5 (List.range 52)).map
      (fun hand => (hand_to_index hand, hand, eval5 t hand)) := by
  unfold offsetsList
  apply List.map_congr_left
  intro hand hh
  obtain ⟨hs, _, _⟩ := mem_combinations_range hh
  simp [List.Sorted.insertionSort_eq hs.le_of_lt]

theorem keys_offsetsList (t : PokerData) :
    (offsetsList t).map (·.1) = (combinations 5 (List.range 52)).map hand_to_index := by
  rw [offsetsList_map, List.map_map]
  rfl

theorem keys_nodup (t : PokerData) : ((offsetsList t).map (·.1)).Nodup := by
  rw [keys_offsetsList]
  refine List.Nodup.map_on ?_ (nodup_combinations 5 (List.nodup_range 52))
  intro x hx y hy hxy
  obtain ⟨hsx, hlx, hbx⟩ := mem_combinations_range hx
  obtain ⟨hsy, hly, hby⟩ := mem_combinations_range hy
  exact hand_to_index_inj hsx hsy hlx hly hbx hby hxy

theorem keys_length (t : PokerData) :
    ((offsetsList t).map (·.1)).length = 2598960 := by
  rw [keys_offsetsList, List.length_map, length_combinations, List.length_range,
    choose_52_5]

theorem keys_lt (t : PokerData) : ∀ k ∈ (offsetsList t).map (·.1), k < 2598960 := by
  rw [keys_offsetsList]
  intro k hk
  obtain ⟨hand, hh, rfl⟩ := List.mem_map.mp hk
  obtain ⟨hs, hl, hb⟩ := mem_combinations_range hh
  have h := hand_to_index_lt hs hl hb
  rwa [choose_52_5] at h

/-- A duplicate-free list of `n` naturals, all below `n`, is a permutation
of `List.range n`. -/
theorem perm_range_of_nodup {K : List Nat} {n : Nat} (hnd : K.Nodup)
    (hlen : K.length = n) (hlt : ∀ k ∈ K, k < n) : K.Perm (List.range n) := by
  apply List.perm_of_nodup_nodup_toFinset_eq hnd (List.nodup_range n)
  apply Finset.eq_of_subset_of_card_le
  · intro x hx
    rw [List.mem_toFinset] at hx ⊢
    exact List.mem_range.mpr (hlt x hx)
  · rw [List.toFinset_card_of_nodup hnd, List.toFinset_card_of_nodup (List.nodup_range n),
      List.length_range, hlen]

theorem sortedKeys_eq_range (t : PokerData) : sortedKeys t = List.range 2598960 := by
  unfold sortedKeys
  have hperm : ((offsetsList t).map (·.1)).Perm (List.range 2598960) :=
    perm_range_of_nodup (keys_nodup t) (keys_length t) (keys_lt t)
  exact List.eq_of_perm_of_sorted ((List.perm_insertionSort _ _).trans hperm)
    (List.sorted_insertionSort _ _) (List.sorted_le_range 2598960)

theorem lookup_of_mem {β : Type} : ∀ {l : List (Nat × β)} {k : Nat} {b : β},
    (l.map (·.1)).Nodup → (k, b) ∈ l → l.lookup k = some b
  | [], k, b, _, h => absurd h (List.not_mem_nil _)
  | (k', b') :: rest, k, b, hnd, hmem => by
    rw [List.map_cons, List.nodup_cons] at hnd
    rcases List.mem_cons.mp hmem with heq | hmem'
    · rw [Prod.mk.injEq] at heq
      obtain ⟨rfl, rfl⟩ := heq
      simp [List.lookup]
    · have hne : k ≠ k' := by
        rintro rfl
        exact hnd.1 (List.mem_map.mpr ⟨(k, b), hmem', rfl⟩)
      simp only [List.lookup, beq_eq_false_iff_ne.mpr hne]
      exact lookup_of_mem hnd.2 hmem'

theorem offsets_lookup (t : PokerData) {k : Nat} (hk : k < 2598960) :
    ∃ z : List Nat, z.Sorted (· < ·) ∧ z.length = 5 ∧ (∀ x ∈ z, x < 52) ∧
      hand_to_index z = k ∧ (offsetsList t).lookup k = some (z, eval5 t z) := by
  obtain ⟨z, hs, hl, hb, hidx⟩ :=
    hand_to_index_surj (n := 52) (k := 5) (v := k) (by omega)
      (by rw [choose_52_5]; omega)
  refine ⟨z, hs, hl, hb, hidx, ?_⟩
  apply lookup_of_mem (keys_nodup t)
  rw [offsetsList_map]
  subst hidx
  exact List.mem_map.mpr ⟨z, combinations_range_of_sorted hs hl hb, rfl⟩

theorem leafRecord_length (t : PokerData) {k : Nat} (hk : k < 2598960) :
    (leafRecord t k).length = 7 := by
  obtain ⟨z, _, hl, _, _, hlook⟩ := offsets_lookup t hk
  unfold leafRecord
  rw [hlook]
  simp [packU16, hl]

theorem leafRecords_length7 (t : PokerData) : ∀ r ∈ leafRecords t, r.length = 7 := by
  intro r hr
  unfold leafRecords at hr
  obtain ⟨k, hk, rfl⟩ := List.mem_map.mp hr
  rw [sortedKeys_eq_range] at hk
  exact leafRecord_length t (List.mem_range.mp hk)

theorem leafRecords_length (t : PokerData) : (leafRecords t).length = 2598960 := by
  unfold leafRecords
  rw [List.length_map, sortedKeys_eq_range, List.length_range]

theorem leafData_length (t : PokerData) : (leafData t).length = 18192720 := by
  unfold leafData
  rw [List.length_flatten]
  have h : (leafRecords t).map List.length = List.replicate 2598960 7 := by
    rw [List.eq_replicate_iff]
    constructor
    · rw [List.length_map, leafRecords_length]
    · intro b hb
      obtain ⟨r, hr, rfl⟩ := List.mem_map.mp hb
      exact leafRecords_length7 t r hr
  rw [h, List.sum_replicate, smul_eq_mul]

/-! ### The pre-flop dict and its keys -/

theorem length_two_shape {l : List Nat} (h : l.length = 2) : ∃ a b, l = [a, b] := by
  rcases l with _ | ⟨a, _ | ⟨b, _ | ⟨c, r⟩⟩⟩ <;> simp_all

theorem preflop_keys (t : PokerData) :
    (preflopList t).map (·.1) = (combinations 2 (List.range 52)).map hand_to_index := by
  unfold preflopList
  rw [List.map_map]
  apply List.map_congr_left
  intro pr hpr
  obtain ⟨hs, hl, hb⟩ := mem_combinations_range hpr
  obtain ⟨h0, h1, rfl⟩ := length_two_shape hl
  rfl

theorem preflop_keys_nodup (t : PokerData) : ((preflopList t).map (·.1)).Nodup := by
  rw [preflop_keys]
  refine List.Nodup.map_on ?_ (nodup_combinations 2 (List.nodup_range 52))
  intro x hx y hy hxy
  obtain ⟨hsx, hlx, hbx⟩ := mem_combinations_range hx
  obtain ⟨hsy, hly, hby⟩ := mem_combinations_range hy
  exact hand_to_index_inj hsx hsy hlx hly hbx hby hxy

theorem preflop_length (t : PokerData) : (preflopList t).length = 1326 := by
  unfold preflopList
  rw [List.length_map, length_combinations, List.length_range, choose_52_2]

theorem preflopSortedKeys_eq_range (t : PokerData) :
    preflopSortedKeys t = List.range 1326 := by
  unfold preflopSortedKeys
  have hlen : ((preflopList t).map (·.1)).length = 1326 := by
    rw [List.length_map, preflop_length]
  have hlt : ∀ k ∈ (preflopList t).map (·.1), k < 1326 := by
    rw [preflop_keys]
    intro k hk
    obtain ⟨pr, hpr, rfl⟩ := List.mem_map.mp hk
    obtain ⟨hs, hl, hb⟩ := mem_combinations_range hpr
    have h := hand_to_index_lt hs hl hb
    rwa [choose_52_2] at h
  have hperm : ((preflopList t).map (·.1)).Perm (List.range 1326) :=
    perm_range_of_nodup (preflop_keys_nodup t) hlen hlt
  exact List.eq_of_perm_of_sorted ((List.perm_insertionSort _ _).trans hperm)
    (List.sorted_insertionSort _ _) (List.sorted_le_range 1326)

/-! ### The pre-flop scan: folds, bounds and the matching-hand count -/

theorem foldl_preflopStep (h0 h1 : Nat) :
    ∀ (vals : List (List Nat × Nat)) (la lb lc ld : Nat),
      vals.foldl (preflopStep h0 h1) (la, lb, lc, ld) =
        (la + ((vals.filter (fun e => h0 ∈ e.1 ∧ h1 ∈ e.1)).map (·.2)).sum,
         lb + ((vals.filter (fun e => h0 ∈ e.1 ∧ h1 ∈ e.1)).map (·.2)).length,
         ((vals.filter (fun e => h0 ∈ e.1 ∧ h1 ∈ e.1)).map (·.2)).foldl
           (fun m s => if s < m then s else m) lc,
         ((vals.filter (fun e => h0 ∈ e.1 ∧ h1 ∈ e.1)).map (·.2)).foldl
           (fun m s => if s > m then s else m) ld)
  | [], la, lb, lc, ld => by simp
  | e :: rest, la, lb, lc, ld => by
    by_cases hc : h0 ∈ e.1 ∧ h1 ∈ e.1
    · have hd : decide (h0 ∈ e.1 ∧ h1 ∈ e.1) = true := decide_eq_true hc
      rw [List.foldl_cons,
        show preflopStep h0 h1 (la, lb, lc, ld) e =
          (la + e.2, lb + 1, if e.2 < lc then e.2 else lc,
            if e.2 > ld then e.2 else ld) from by simp [preflopStep, hc],
        foldl_preflopStep h0 h1 rest, List.filter_cons, hd, if_pos rfl]
      simp only [List.map_cons, List.sum_cons, List.length_cons, List.foldl_cons,
        Prod.mk.injEq, and_true]
      exact ⟨by omega, by omega⟩
    · have hd : decide (h0 ∈ e.1 ∧ h1 ∈ e.1) = false := decide_eq_false hc
      rw [List.foldl_cons,
        show preflopStep h0 h1 (la, lb, lc, ld) e = (la, lb, lc, ld) from by
          simp [preflopStep, hc],
        foldl_preflopStep h0 h1 rest, List.filter_cons, hd, if_neg (by simp)]

theorem preflopScan_eq (t : PokerData) (h0 h1 : Nat) :
    preflopScan t h0 h1 =
      ((matchScores t h0 h1).sum, (matchScores t h0 h1).length,
        (matchScores t h0 h1).foldl (fun m s => if s < m then s else m) 0xFFFFFF,
        (matchScores t h0 h1).foldl (fun m s => if s > m then s else m) 0) := by
  unfold preflopScan matchScores
  rw [foldl_preflopStep]
  simp

theorem foldl_min_spec : ∀ (l : List Nat) (a : Nat),
    l.foldl (fun m s => if s < m then s else m) a ∈ a :: l ∧
      ∀ x ∈ a :: l, l.foldl (fun m s => if s < m then s else m) a ≤ x
  | [], a => by simp
  | s :: rest, a => by
    rw [List.foldl_cons]
    obtain ⟨hmem, hle⟩ := foldl_min_spec rest (if s < a then s else a)
    constructor
    · rcases List.mem_cons.mp hmem with heq | hmem'
      · rw [heq]
        by_cases hsa : s < a <;> simp [hsa]
      · exact List.mem_cons.mpr (Or.inr (List.mem_cons.mpr (Or.inr hmem')))
    · intro x hx
      have hfirst := hle _ (List.mem_cons_self _ _)
      rcases List.mem_cons.mp hx with rfl | hx'
      · have : (if s < x then s else x) ≤ x := by
          by_cases hsx : s < x <;> simp [hsx]; omega
        omega
      · rcases List.mem_cons.mp hx' with rfl | hx''
        · have : (if x < a then x else a) ≤ x := by
            by_cases hxa : x < a <;> simp [hxa]; omega
          omega
        · exact hle x (List.mem_cons.mpr (Or.inr hx''))

theorem foldl_max_spec : ∀ (l : List Nat) (a : Nat),
    l.foldl (fun m s => if s > m then s else m) a ∈ a :: l ∧
      ∀ x ∈ a :: l, x ≤ l.foldl (fun m s => if s > m then s else m) a
  | [], a => by simp
  | s :: rest, a => by
    rw [List.foldl_cons]
    obtain ⟨hmem, hle⟩ := foldl_max_spec rest (if s > a then s else a)
    constructor
    · rcases List.mem_cons.mp hmem with heq | hmem'
      · rw [heq]
        by_cases hsa : s > a <;> simp [hsa]
      · exact List.mem_cons.mpr (Or.inr (List.mem_cons.mpr (Or.inr hmem')))
    · intro x hx
      have hfirst := hle _ (List.mem_cons_self _ _)
      rcases List.mem_cons.mp hx with rfl | hx'
      · have : x ≤ (if s > x then s else x) := by
          by_cases hsx : s > x <;> simp [hsx]; omega
        omega
      · rcases List.mem_cons.mp hx' with rfl | hx''
        · have : x ≤ (if x > a then x else a) := by
            by_cases hxa : x > a <;> simp [hxa]; omega
          omega
        · exact hle x (List.mem_cons.mpr (Or.inr hx''))

/-- The running minimum is a genuine minimum once every score beats the
`0xFFFFFF` sentinel and at least one hand matches. -/
theorem foldl_min_mem {l : List Nat} {a : Nat} (hne : l ≠ [])
    (hlt : ∀ s ∈ l, s < a) :
    l.foldl (fun m s => if s < m then s else m) a ∈ l ∧
      ∀ x ∈ l, l.foldl (fun m s => if s < m then s else m) a ≤ x := by
  obtain ⟨hmem, hle⟩ := foldl_min_spec l a
  refine ⟨?_, fun x hx => hle x (List.mem_cons.mpr (Or.inr hx))⟩
  rcases List.mem_cons.mp hmem with heq | hmem'
  · obtain ⟨s0, hs0⟩ := List.exists_mem_of_ne_nil l hne
    have h1 := hle s0 (List.mem_cons.mpr (Or.inr hs0))
    have h2 := hlt s0 hs0
    omega
  · exact hmem'

theorem foldl_max_mem {l : List Nat} (hne : l ≠ []) :
    l.foldl (fun m s => if s > m then s else m) 0 ∈ l ∧
      ∀ x ∈ l, x ≤ l.foldl (fun m s => if s > m then s else m) 0 := by
  obtain ⟨hmem, hle⟩ := foldl_max_spec l 0
  refine ⟨?_, fun x hx => hle x (List.mem_cons.mpr (Or.inr hx))⟩
  rcases List.mem_cons.mp hmem with heq | hmem'
  · obtain ⟨s0, hs0⟩ := List.exists_mem_of_ne_nil l hne
    have h1 := hle s0 (List.mem_cons.mpr (Or.inr hs0))
    have h2 : s0 = 0 := by omega
    rw [heq]
    rw [h2] at hs0
    exact hs0
  · exact hmem'

theorem sorted_lt_nodup {z : List Nat} (hs : z.Sorted (· < ·)) : z.Nodup :=
  List.Pairwise.imp (fun h => ne_of_lt h) hs

/-- A strictly sorted list is recovered by sorting its `toFinset`. -/
theorem sort_toFinset_eq {z : List Nat} (hs : z.Sorted (· < ·)) :
    Finset.sort (· ≤ ·) z.toFinset = z := by
  apply List.eq_of_perm_of_sorted
    (List.perm_of_nodup_nodup_toFinset_eq (Finset.sort_nodup _ _) (sorted_lt_nodup hs)
      (by rw [Finset.sort_toFinset]))
    (Finset.sort_sorted _ _) hs.le_of_lt

theorem matchScores_eq (t : PokerData) (h0 h1 : Nat) :
    matchScores t h0 h1 =
      ((combinations 5 (List.range 52)).filter
        (fun hand => h0 ∈ hand ∧ h1 ∈ hand)).map (eval5 t) := by
  unfold matchScores
  rw [offsetsList_map, List.map_map, List.filter_map, List.map_map]
  rfl

/-- Exactly `C(50, 3) = 19600` five-card combinations contain two given
distinct cards. -/
theorem matchHands_count {h0 h1 : Nat} (hh0 : h0 < 52) (hh1 : h1 < 52)
    (hne : h0 ≠ h1) :
    ((combinations 5 (List.range 52)).filter
      (fun hand => h0 ∈ hand ∧ h1 ∈ hand)).length = 19600 := by
  set F := (combinations 5 (List.range 52)).filter
    (fun hand => h0 ∈ hand ∧ h1 ∈ hand) with hF
  have hFnd : F.Nodup :=
    (nodup_combinations 5 (List.nodup_range 52)).filter _
  have hmemF : ∀ z : List Nat, z ∈ F ↔
      (z.Sorted (· < ·) ∧ z.length = 5 ∧ (∀ x ∈ z, x < 52)) ∧
        h0 ∈ z ∧ h1 ∈ z := by
    intro z
    rw [hF, List.mem_filter]
    constructor
    · rintro ⟨hz, hq⟩
      simp only [decide_eq_true_eq] at hq
      exact ⟨mem_combinations_range hz, hq⟩
    · rintro ⟨⟨hs, hl, hb⟩, hq⟩
      refine ⟨combinations_range_of_sorted hs hl hb, ?_⟩
      simp only [decide_eq_true_eq]
      exact hq
  have hcard : F.length = F.toFinset.card :=
    (List.toFinset_card_of_nodup hFnd).symm
  rw [hcard]
  have hbij : F.toFinset.card =
      (Finset.powersetCard 3 (((List.range 52).toFinset.erase h0).erase h1)).card := by
    apply Finset.card_bij'
      (fun z _ => (z.toFinset.erase h0).erase h1)
      (fun u _ => Finset.sort (· ≤ ·) (insert h0 (insert h1 u)))
    · intro z hz
      rw [List.mem_toFinset, hmemF] at hz
      obtain ⟨⟨hs, hl, hb⟩, hq0, hq1⟩ := hz
      rw [Finset.mem_powersetCard]
      constructor
      · intro x hx
        rw [Finset.mem_erase] at hx
        obtain ⟨hx1, hx2⟩ := hx
        rw [Finset.mem_erase] at hx2
        obtain ⟨hx0, hxz⟩ := hx2
        rw [Finset.mem_erase]
        refine ⟨hx1, ?_⟩
        rw [Finset.mem_erase]
        refine ⟨hx0, ?_⟩
        rw [List.mem_toFinset] at hxz
        rw [List.mem_toFinset]
        exact List.mem_range.mpr (hb x hxz)
      · have hzc : z.toFinset.card = 5 := by
          rw [List.toFinset_card_of_nodup (sorted_lt_nodup hs), hl]
        rw [Finset.card_erase_of_mem, Finset.card_erase_of_mem, hzc]
        · rw [List.mem_toFinset]; exact hq0
        · rw [Finset.mem_erase]
          exact ⟨hne.symm, List.mem_toFinset.mpr hq1⟩
    · intro u hu
      rw [Finset.mem_powersetCard] at hu
      obtain ⟨hsub, hcard3⟩ := hu
      have hh0u : h0 ∉ u := fun h => by
        have := hsub h
        rw [Finset.mem_erase, Finset.mem_erase] at this
        exact this.2.1 rfl
      have hh1u : h1 ∉ u := fun h => by
        have := hsub h
        rw [Finset.mem_erase] at this
        exact this.1 rfl
      have hh0i : h0 ∉ insert h1 u := by
        rw [Finset.mem_insert]
        rintro (h | h)
        · exact hne h
        · exact hh0u h
      have hwc : (insert h0 (insert h1 u)).card = 5 := by
        rw [Finset.card_insert_of_not_mem hh0i, Finset.card_insert_of_not_mem hh1u,
          hcard3]
      rw [List.mem_toFinset, hmemF]
      have hmemw : ∀ x ∈ insert h0 (insert h1 u), x < 52 := by
        intro x hx
        rw [Finset.mem_insert, Finset.mem_insert] at hx
        rcases hx with rfl | rfl | hx
        · exact hh0
        · exact hh1
        · have := hsub hx
          rw [Finset.mem_erase, Finset.mem_erase, List.mem_toFinset,
            List.mem_range] at this
          exact this.2.2
      refine ⟨⟨Finset.sort_sorted_lt _, ?_, ?_⟩, ?_, ?_⟩
      · rw [Finset.length_sort, hwc]
      · intro x hx
        rw [Finset.mem_sort] at hx
        exact hmemw x hx
      · rw [Finset.mem_sort]
        exact Finset.mem_insert_self h0 _
      · rw [Finset.mem_sort, Finset.mem_insert]
        exact Or.inr (Finset.mem_insert_self h1 u)
    · intro z hz
      rw [List.mem_toFinset, hmemF] at hz
      obtain ⟨⟨hs, hl, hb⟩, hq0, hq1⟩ := hz
      have h1mem : h1 ∈ z.toFinset.erase h0 := by
        rw [Finset.mem_erase]
        exact ⟨hne.symm, List.mem_toFinset.mpr hq1⟩
      rw [Finset.insert_erase h1mem, Finset.insert_erase (List.mem_toFinset.mpr hq0)]
      exact sort_toFinset_eq hs
    · intro u hu
      rw [Finset.mem_powersetCard] at hu
      obtain ⟨hsub, hcard3⟩ := hu
      have hh0u : h0 ∉ u := fun h => by
        have := hsub h
        rw [Finset.mem_erase, Finset.mem_erase] at this
        exact this.2.1 rfl
      have hh1u : h1 ∉ u := fun h => by
        have := hsub h
        rw [Finset.mem_erase] at this
        exact this.1 rfl
      have hh0i : h0 ∉ insert h1 u := by
        rw [Finset.mem_insert]
        rintro (h | h)
        · exact hne h
        · exact hh0u h
      rw [Finset.sort_toFinset, Finset.erase_insert hh0i, Finset.erase_insert hh1u]
  rw [hbij, Finset.card_powersetCard]
  have hc52 : (List.range 52).toFinset.card = 52 := by
    rw [List.toFinset_card_of_nodup (List.nodup_range 52), List.length_range]
  have h1mem : h1 ∈ (List.range 52).toFinset.erase h0 := by
    rw [Finset.mem_erase]
    exact ⟨hne.symm, List.mem_toFinset.mpr (List.mem_range.mpr hh1)⟩
  rw [Finset.card_erase_of_mem h1mem,
    Finset.card_erase_of_mem (List.mem_toFinset.mpr (List.mem_range.mpr hh0)), hc52]
  exact choose_50_3

theorem matchScores_length {t : PokerData} {h0 h1 : Nat} (hh0 : h0 < 52)
    (hh1 : h1 < 52) (hne : h0 ≠ h1) : (matchScores t h0 h1).length = 19600 := by
  rw [matchScores_eq, List.length_map]
  exact matchHands_count hh0 hh1 hne

/-! ### Evaluator bounds and the flush-condition normal form -/

theorem length_five_shape {l : List Nat} (h : l.length = 5) :
    ∃ a b c d e, l = [a, b, c, d, e] := by
  rcases l with _ | ⟨a, _ | ⟨b, _ | ⟨c, _ | ⟨d, _ | ⟨e, _ | ⟨f, r⟩⟩⟩⟩⟩⟩ <;> simp_all

theorem eval5_lt {t : PokerData} (h16 : tables16 t) (hand : List Nat) :
    eval5 t hand < 65536 := by
  obtain ⟨hf, hu, hv⟩ := h16
  unfold eval5
  split
  · rename_i c1 c2 c3 c4 c5 heq
    dsimp only
    by_cases hflush : 0xf000 &&& c1 &&& c2 &&& c3 &&& c4 &&& c5 ≠ 0
    · rw [if_pos hflush]
      exact hf _
    · rw [if_neg hflush]
      by_cases hs : t.UNIQUE_5 ((c1 ||| c2 ||| c3 ||| c4 ||| c5) >>> 16) ≠ 0
      · rw [if_pos hs]
        exact hu _
      · rw [if_neg hs]
        show t.HASH_VALUES (hash_index t (primeProduct c1 c2 c3 c4 c5)) < 65536
        exact hv _
  · omega

theorem eval5_range {t : PokerData} (hr : tablesScoreRange t) {hand : List Nat}
    (hl : hand.length = 5) : 1 ≤ eval5 t hand ∧ eval5 t hand ≤ 7462 := by
  obtain ⟨hf, hu, hv⟩ := hr
  obtain ⟨a, b, c, d, e, hm⟩ : ∃ a b c d e, hand.map LOOKUP = [a, b, c, d, e] :=
    length_five_shape (by rw [List.length_map, hl])
  unfold eval5
  rw [hm]
  dsimp only
  by_cases hflush : 0xf000 &&& a &&& b &&& c &&& d &&& e ≠ 0
  · rw [if_pos hflush]
    exact hf _
  · rw [if_neg hflush]
    by_cases hs : t.UNIQUE_5 ((a ||| b ||| c ||| d ||| e) >>> 16) ≠ 0
    · rw [if_pos hs]
      exact hu _ hs
    · rw [if_neg hs]
      show 1 ≤ t.HASH_VALUES (hash_index t (primeProduct a b c d e)) ∧
        t.HASH_VALUES (hash_index t (primeProduct a b c d e)) ≤ 7462
      exact hv _

theorem and_chain_comm (a b c d e m : Nat) :
    m &&& a &&& b &&& c &&& d &&& e = a &&& b &&& c &&& d &&& e &&& m := by
  rw [Nat.and_comm m a,
    Nat.and_assoc a m b, Nat.and_comm m b, ← Nat.and_assoc a b m,
    Nat.and_assoc (a &&& b) m c, Nat.and_comm m c, ← Nat.and_assoc (a &&& b) c m,
    Nat.and_assoc (a &&& b &&& c) m d, Nat.and_comm m d,
    ← Nat.and_assoc (a &&& b &&& c) d m,
    Nat.and_assoc (a &&& b &&& c &&& d) m e, Nat.and_comm m e,
    ← Nat.and_assoc (a &&& b &&& c &&& d) e m]

/-! ### Merkle-tree structure -/

theorem pairUp_length (H : List Nat → List Nat) (lvl : Nat) :
    ∀ l : List (List Nat), (pairUp H lvl l).length = (l.length + 1) / 2
  | [] => by simp [pairUp]
  | [x] => by simp [pairUp]
  | x :: y :: rest => by
    simp only [pairUp, List.length_cons, pairUp_length H lvl rest]
    omega

theorem pairUp_pairs (H : List Nat → List Nat) (lvl : Nat) :
    ∀ (l : List (List Nat)) (i : Nat), 2 * i + 1 < l.length →
      (pairUp H lvl l)[i]? =
        some (H ((l[2 * i]?.getD []) ++ (l[2 * i + 1]?.getD [])))
  | [], i, h => by simp at h
  | [x], i, h => by simp at h
  | x :: y :: rest, 0, h => by simp [pairUp]
  | x :: y :: rest, i + 1, h => by
    have hrec := pairUp_pairs H lvl rest i (by
      simp only [List.length_cons] at h; omega)
    rw [show 2 * (i + 1) = 2 * i + 1 + 1 from by omega]
    simp only [pairUp, List.getElem?_cons_succ, hrec]

theorem getLast?_cons_ne {α : Type} (a : α) {l : List α} (h : l ≠ []) :
    (a :: l).getLast? = l.getLast? := by
  rcases l with _ | ⟨b, r⟩
  · exact absurd rfl h
  · exact List.getLast?_cons_cons

/-- On an odd-width level the final unpaired node is hashed together with
the level's filler. -/
theorem pairUp_odd_last (H : List Nat → List Nat) (lvl : Nat) :
    ∀ (l : List (List Nat)) (x : List Nat), l.length % 2 = 1 →
      l.getLast? = some x →
      (pairUp H lvl l).getLast? = some (H (x ++ filler lvl))
  | [], x, hodd, _ => by simp at hodd
  | [y], x, _, hlast => by
    simp only [List.getLast?_singleton, Option.some.injEq] at hlast
    subst hlast
    rfl
  | y :: z :: rest, x, hodd, hlast => by
    have hrlen : rest.length % 2 = 1 := by
      simp only [List.length_cons] at hodd; omega
    have hrne : rest ≠ [] := by
      intro h; rw [h] at hrlen; simp at hrlen
    have hlast' : rest.getLast? = some x := by
      rw [List.getLast?_cons_cons, getLast?_cons_ne z hrne] at hlast
      exact hlast
    have hpne : pairUp H lvl rest ≠ [] := by
      intro h
      have := pairUp_length H lvl rest
      rw [h] at this
      simp at this
      omega
    show (H (y ++ z) :: pairUp H lvl rest).getLast? = some (H (x ++ filler lvl))
    rw [getLast?_cons_ne _ hpne]
    exact pairUp_odd_last H lvl rest x hrlen hlast'

theorem rootLoop_some (H : List Nat → List Nat) :
    ∀ (fuel lvl : Nat) (l : List (List Nat)), l ≠ [] → l.length < fuel →
      ∃ r, rootLoop H fuel lvl l = some r
  | 0, _, l, hne, hf => by
    have := List.length_pos.mpr hne
    omega
  | fuel + 1, lvl, [], hne, _ => absurd rfl hne
  | fuel + 1, lvl, [x], _, _ => ⟨x, rfl⟩
  | fuel + 1, lvl, x :: y :: rest, _, hf => by
    have hlen : (pairUp H lvl (x :: y :: rest)).length = (rest.length + 2 + 1) / 2 := by
      rw [pairUp_length]
      simp
    have hne' : pairUp H lvl (x :: y :: rest) ≠ [] := by
      intro h
      rw [h] at hlen
      simp at hlen
      omega
    have hlt : (pairUp H lvl (x :: y :: rest)).length < fuel := by
      simp only [List.length_cons] at hf
      omega
    obtain ⟨r, hr⟩ := rootLoop_some H fuel (lvl + 1) _ hne' hlt
    exact ⟨r, by rw [rootLoop]; exact hr⟩

theorem merkleRoot_some (H : List Nat → List Nat) {l : List (List Nat)}
    (hne : l ≠ []) : ∃ r, merkleRoot H l = some r :=
  rootLoop_some H (l.length + 1) 0 l hne (by omega)

theorem filler_inj {i j : Nat} (hne : i ≠ j) : filler i ≠ filler j := by
  intro h
  have h32 : (List.replicate 32 i).head? = (List.replicate 32 j).head? :=
    congrArg List.head? h
  simp [List.replicate] at h32
  exact hne h32

/-! ### The perfect hash: unmasked versus fully wrapping arithmetic -/

theorem and_ffffffff (w : Nat) : w &&& 0xffffffff = w % 2 ^ 32 := by
  rw [show (0xffffffff : Nat) = 2 ^ 32 - 1 from by norm_num,
    Nat.and_pow_two_sub_one_eq_mod]

/-- The `& 0x1fff` mask only reads bits below 13, and bits 0–12 of
`(y mod 2^32) >> 19` are bits 19–31 of `y`: reducing mod `2^32` before the
shift (and after the XOR) cannot change the final masked index. -/
theorem final_mask_eq (y u : Nat) :
    ((y >>> 19) ^^^ u) &&& 0x1fff =
      ((((y % 2 ^ 32) >>> 19) ^^^ u) % 2 ^ 32) &&& 0x1fff := by
  rw [show (0x1fff : Nat) = 2 ^ 13 - 1 from by norm_num,
    Nat.and_pow_two_sub_one_eq_mod, Nat.and_pow_two_sub_one_eq_mod]
  apply Nat.eq_of_testBit_eq
  intro i
  simp only [Nat.testBit_mod_two_pow, Nat.testBit_xor, Nat.testBit_shiftRight]
  by_cases hi : i < 13
  · simp [hi, show 19 + i < 32 from by omega, show i < 32 from by omega]
  · simp [hi]

theorem hash_index_eq32 (t : PokerData) {x : Nat}
    (hx : x + 0xe91aaa35 < 2 ^ 32) : hash_index t x = hash_index32 t x := by
  simp only [hash_index, hash_index32]
  rw [Nat.mod_eq_of_lt hx]
  generalize hx1 : x + 0xe91aaa35 = x1
  have hx1lt : x1 < 2 ^ 32 := hx1 ▸ hx
  have hsh1 : x1 >>> 16 ≤ x1 := by
    rw [Nat.shiftRight_eq_div_pow]
    exact Nat.div_le_self _ _
  rw [Nat.mod_eq_of_lt (Nat.xor_lt_two_pow hx1lt (lt_of_le_of_lt hsh1 hx1lt))]
  generalize x1 ^^^ (x1 >>> 16) = x2
  simp only [and_ffffffff]
  rw [show (x2 + ((x2 <<< 8) % 2 ^ 32)) % 2 ^ 32 = (x2 + (x2 <<< 8)) % 2 ^ 32 from by
    conv_lhs => rw [Nat.add_mod]
    rw [Nat.mod_mod_of_dvd _ (dvd_refl _), ← Nat.add_mod]]
  rw [Nat.mod_mod_of_dvd _ (dvd_refl _)]
  generalize hx4 : (x2 + (x2 <<< 8)) % 2 ^ 32 = x4
  have hx4lt : x4 < 2 ^ 32 := hx4 ▸ Nat.mod_lt _ (by norm_num)
  have hsh4 : x4 >>> 4 ≤ x4 := by
    rw [Nat.shiftRight_eq_div_pow]
    exact Nat.div_le_self _ _
  rw [Nat.mod_eq_of_lt (Nat.xor_lt_two_pow hx4lt (lt_of_le_of_lt hsh4 hx4lt))]
  generalize x4 ^^^ (x4 >>> 4) = x5
  rw [show (x5 + ((x5 <<< 2) % 2 ^ 32)) % 2 ^ 32 = (x5 + (x5 <<< 2)) % 2 ^ 32 from by
    conv_lhs => rw [Nat.add_mod]
    rw [Nat.mod_mod_of_dvd _ (dvd_refl _), ← Nat.add_mod]]
  exact final_mask_eq (x5 + (x5 <<< 2)) (t.HASH_ADJUST ((x5 >>> 8) &&& 0x1ff))

theorem LOOKUP_and_ff_le : ∀ c < 52, LOOKUP c &&& 0xff ≤ 41 := by decide

theorem primeProduct_small {c1 c2 c3 c4 c5 : Nat} (h1 : c1 < 52) (h2 : c2 < 52)
    (h3 : c3 < 52) (h4 : c4 < 52) (h5 : c5 < 52) :
    primeProduct (LOOKUP c1) (LOOKUP c2) (LOOKUP c3) (LOOKUP c4) (LOOKUP c5) +
      0xe91aaa35 < 2 ^ 32 := by
  have hp : primeProduct (LOOKUP c1) (LOOKUP c2) (LOOKUP c3) (LOOKUP c4)
      (LOOKUP c5) ≤ 41 * 41 * 41 * 41 * 41 := by
    unfold primeProduct
    exact Nat.mul_le_mul (Nat.mul_le_mul (Nat.mul_le_mul (Nat.mul_le_mul
      (LOOKUP_and_ff_le c1 h1) (LOOKUP_and_ff_le c2 h2))
      (LOOKUP_and_ff_le c3 h3)) (LOOKUP_and_ff_le c4 h4))
      (LOOKUP_and_ff_le c5 h5)
  have hpow : (2 : Nat) ^ 32 = 4294967296 := by norm_num
  omega

/-! ### Remaining helper lemmas -/

theorem length_mul_le_sum : ∀ (l : List Nat) (m : Nat), (∀ s ∈ l, m ≤ s) →
    l.length * m ≤ l.sum
  | [], m, _ => by simp
  | s :: rest, m, h => by
    have hrec := length_mul_le_sum rest m (fun x hx => h x (List.mem_cons_of_mem s hx))
    have hs := h s (List.mem_cons_self s rest)
    simp only [List.length_cons, List.sum_cons]
    have : (rest.length + 1) * m = rest.length * m + m := by ring
    omega

theorem sum_le_length_mul : ∀ (l : List Nat) (M : Nat), (∀ s ∈ l, s ≤ M) →
    l.sum ≤ l.length * M
  | [], M, _ => by simp
  | s :: rest, M, h => by
    have hrec := sum_le_length_mul rest M (fun x hx => h x (List.mem_cons_of_mem s hx))
    have hs := h s (List.mem_cons_self s rest)
    simp only [List.length_cons, List.sum_cons]
    have : (rest.length + 1) * M = rest.length * M + M := by ring
    omega

theorem matchScores_mem {t : PokerData} {h0 h1 s : Nat}
    (hs : s ∈ matchScores t h0 h1) :
    ∃ hand, hand ∈ combinations 5 (List.range 52) ∧ s = eval5 t hand := by
  rw [matchScores_eq] at hs
  obtain ⟨hand, hmem, rfl⟩ := List.mem_map.mp hs
  exact ⟨hand, (List.mem_filter.mp hmem).1, rfl⟩

theorem prod4_eta (p : Nat × Nat × Nat × Nat) :
    p = (p.1, p.2.1, p.2.2.1, p.2.2.2) := rfl

/-! ### The claims -/

/-- C1: for `k = 5` and `k = 2`, `hand_to_index` is a bijection from the
sorted `k`-element subsets of `{0..51}` onto `[0, C(52,k))`: every 5-card
(resp. 2-card) combination maps into the interval, distinct combinations map
to distinct integers, and every integer in the interval is attained
(`C(52,5) = 2598960`, `C(52,2) = 1326`). -/
theorem C1_hand_to_index_bijective :
    ((∀ z : List Nat, z.Sorted (· < ·) → z.length = 5 → (∀ c ∈ z, c < 52) →
        hand_to_index z < 2598960) ∧
      (∀ z z' : List Nat, z.Sorted (· < ·) → z'.Sorted (· < ·) → z.length = 5 →
        z'.length = 5 → (∀ c ∈ z, c < 52) → (∀ c ∈ z', c < 52) →
        hand_to_index z = hand_to_index z' → z = z') ∧
      (∀ v, v < 2598960 → ∃ z : List Nat, z.Sorted (· < ·) ∧ z.length = 5 ∧
        (∀ c ∈ z, c < 52) ∧ hand_to_index z = v)) ∧
    ((∀ z : List Nat, z.Sorted (· < ·) → z.length = 2 → (∀ c ∈ z, c < 52) →
        hand_to_index z < 1326) ∧
      (∀ z z' : List Nat, z.Sorted (· < ·) → z'.Sorted (· < ·) → z.length = 2 →
        z'.length = 2 → (∀ c ∈ z, c < 52) → (∀ c ∈ z', c < 52) →
        hand_to_index z = hand_to_index z' → z = z') ∧
      (∀ v, v < 1326 → ∃ z : List Nat, z.Sorted (· < ·) ∧ z.length = 2 ∧
        (∀ c ∈ z, c < 52) ∧ hand_to_index z = v)) := by
  refine ⟨⟨?_, ?_, ?_⟩, ?_, ?_, ?_⟩
  · intro z hs hl hb
    have h := hand_to_index_lt hs hl hb
    rwa [choose_52_5] at h
  · intro z z' hs hs' hl hl' hb hb' heq
    exact hand_to_index_inj hs hs' hl hl' hb hb' heq
  · intro v hv
    exact hand_to_index_surj (by omega) (by rw [choose_52_5]; omega)
  · intro z hs hl hb
    have h := hand_to_index_lt hs hl hb
    rwa [choose_52_2] at h
  · intro z z' hs hs' hl hl' hb hb' heq
    exact hand_to_index_inj hs hs' hl hl' hb hb' heq
  · intro v hv
    exact hand_to_index_surj (by omega) (by rw [choose_52_2]; omega)

theorem C1_witness :
    hand_to_index [7, 15, 21, 32, 43] < 2598960 ∧ hand_to_index [3, 40] < 1326 :=
  ⟨C1_hand_to_index_bijective.1.1 [7, 15, 21, 32, 43] (by decide) (by decide)
      (by decide),
    C1_hand_to_index_bijective.2.1 [3, 40] (by decide) (by decide) (by decide)⟩

/-- C9: the (spec-modelled) greedy `fromIndex` inverts `hand_to_index` on
every sorted 5-card subset of `{0..51}`. -/
theorem C9_fromIndex_inverse (z : List Nat) (hs : z.Sorted (· < ·))
    (hl : z.length = 5) (hb : ∀ c ∈ z, c < 52) :
    fromIndex (hand_to_index z) = z := by
  unfold fromIndex
  have hrev : z.reverse.Sorted (· > ·) := List.pairwise_reverse.mpr hs
  have hb51 : ∀ x ∈ z.reverse, x ≤ 51 := fun x hx => by
    have := hb x (List.mem_reverse.mp hx); omega
  have h := unrank_idxD hrev hb51
  rw [List.length_reverse, hl] at h
  rw [hand_to_index_sorted hs.le_of_lt, h, List.reverse_reverse]

theorem C9_witness : fromIndex (hand_to_index [7, 15, 21, 32, 43]) = [7, 15, 21, 32, 43] :=
  C9_fromIndex_inverse [7, 15, 21, 32, 43] (by decide) (by decide) (by decide)

/-- C3: for every 5-card hand, `eval5` returns the flush-table entry keyed
by the OR'd rank bits exactly when the AND of the five suit-flag nibbles
(mask `0xF000`) is nonzero; otherwise the unique-ranks entry for the same
key when nonzero; otherwise the perfect-hash lookup of the prime product
(`eval5_spec` is that description, transcribed from the claim). -/
theorem C3_eval5_dispatch (t : PokerData) (hand : List Nat)
    (hl : hand.length = 5) : eval5 t hand = eval5_spec t hand := by
  obtain ⟨a, b, c, d, e, hm⟩ : ∃ a b c d e, hand.map LOOKUP = [a, b, c, d, e] :=
    length_five_shape (by rw [List.length_map, hl])
  unfold eval5 eval5_spec
  rw [hm]
  dsimp only
  rw [and_chain_comm a b c d e 0xf000]

theorem C3_witness :
    eval5 ⟨fun _ => 1, fun _ => 1, fun _ => 0, fun _ => 1⟩ [0, 5, 17, 30, 49] =
      eval5_spec ⟨fun _ => 1, fun _ => 1, fun _ => 0, fun _ => 1⟩ [0, 5, 17, 30, 49] :=
  C3_eval5_dispatch _ [0, 5, 17, 30, 49] (by decide)

/-- C7: on the domain of prime products of five deck cards, `hash_function`
(which masks to 32 bits only after the add-shifted-self step) produces the
same table index `r` and the same `HASH_VALUES` output as the variant that
wraps every intermediate to 32 bits. -/
theorem C7_hash_masking (t : PokerData) (c1 c2 c3 c4 c5 : Nat) (h1 : c1 < 52)
    (h2 : c2 < 52) (h3 : c3 < 52) (h4 : c4 < 52) (h5 : c5 < 52) :
    hash_index t (primeProduct (LOOKUP c1) (LOOKUP c2) (LOOKUP c3) (LOOKUP c4)
        (LOOKUP c5)) =
      hash_index32 t (primeProduct (LOOKUP c1) (LOOKUP c2) (LOOKUP c3) (LOOKUP c4)
        (LOOKUP c5)) ∧
    hash_function t (primeProduct (LOOKUP c1) (LOOKUP c2) (LOOKUP c3) (LOOKUP c4)
        (LOOKUP c5)) =
      hash_function32 t (primeProduct (LOOKUP c1) (LOOKUP c2) (LOOKUP c3) (LOOKUP c4)
        (LOOKUP c5)) := by
  have h := hash_index_eq32 t (primeProduct_small h1 h2 h3 h4 h5)
  refine ⟨h, ?_⟩
  unfold hash_function hash_function32
  rw [h]

theorem C7_witness :
    hash_function ⟨fun _ => 1, fun _ => 1, fun _ => 0, fun _ => 1⟩
        (primeProduct (LOOKUP 48) (LOOKUP 49) (LOOKUP 50) (LOOKUP 51) (LOOKUP 44)) =
      hash_function32 ⟨fun _ => 1, fun _ => 1, fun _ => 0, fun _ => 1⟩
        (primeProduct (LOOKUP 48) (LOOKUP 49) (LOOKUP 50) (LOOKUP 51) (LOOKUP 44)) :=
  (C7_hash_masking _ 48 49 50 51 44 (by decide) (by decide) (by decide) (by decide)
    (by decide)).2

/-- C8: for a 7-card hand, `eval7` is the minimum of `eval5` over all
`C(7,5) = 21` five-card subsets (length-5 subsequences) of the hand. -/
theorem C8_eval7_min (t : PokerData) (hand : List Nat) (hl : hand.length = 7) :
    (combinations 5 hand).length = 21 ∧
    ∃ m, eval7 t hand = some m ∧
      (∀ s, s.Sublist hand → s.length = 5 → m ≤ eval5 t s) ∧
      (∃ s, s.Sublist hand ∧ s.length = 5 ∧ eval5 t s = m) := by
  have hlen : (combinations 5 hand).length = 21 := by
    rw [length_combinations, hl]
    decide
  refine ⟨hlen, ?_⟩
  obtain ⟨m, hm⟩ : ∃ m, ((combinations 5 hand).map (eval5 t)).min? = some m := by
    rcases hmm : ((combinations 5 hand).map (eval5 t)).min? with _ | m
    · rw [List.min?_eq_none_iff] at hmm
      have := congrArg List.length hmm
      rw [List.length_map, hlen] at this
      simp at this
    · exact ⟨m, rfl⟩
  have hm2 := hm
  rw [List.min?_eq_some_iff] at hm2
  · obtain ⟨hmem, hlb⟩ := hm2
    obtain ⟨s0, hs0, hs0e⟩ := List.mem_map.mp hmem
    obtain ⟨hs0sub, hs0len⟩ := mem_combinations.mp hs0
    refine ⟨m, ?_, ?_, s0, hs0sub, hs0len, hs0e⟩
    · unfold eval7
      exact hm
    · intro s hsub hslen
      exact hlb _ (List.mem_map.mpr ⟨s, mem_combinations.mpr ⟨hsub, hslen⟩, rfl⟩)
  · exact Nat.le_refl
  · exact fun a b => min_choice a b
  · exact fun a b c => le_min_iff

theorem C8_witness :
    (combinations 5 [0, 1, 2, 3, 4, 5, 6]).length = 21 ∧
    ∃ m, eval7 ⟨fun _ => 1, fun _ => 1, fun _ => 0, fun _ => 1⟩ [0, 1, 2, 3, 4, 5, 6] = some m ∧
      (∀ s, s.Sublist [0, 1, 2, 3, 4, 5, 6] → s.length = 5 →
        m ≤ eval5 ⟨fun _ => 1, fun _ => 1, fun _ => 0, fun _ => 1⟩ s) ∧
      (∃ s, s.Sublist [0, 1, 2, 3, 4, 5, 6] ∧ s.length = 5 ∧
        eval5 ⟨fun _ => 1, fun _ => 1, fun _ => 0, fun _ => 1⟩ s = m) :=
  C8_eval7_min _ [0, 1, 2, 3, 4, 5, 6] (by decide)

/-- C2: after enumerating all 5-card combinations, the offsets mapping has
exactly 2,598,960 entries with distinct keys whose set is exactly
`{0, …, 2598959}`; the leaf records are emitted in ascending
combinatorial-index order, each exactly 7 bytes (5 sorted card ordinals then
the 2-byte little-endian score), 18,192,720 bytes in total. -/
theorem C2_leaf_dataset (t : PokerData) (h16 : tables16 t) :
    (offsetsList t).length = 2598960 ∧
    ((offsetsList t).map (·.1)).Nodup ∧
    ((offsetsList t).map (·.1)).toFinset = (List.range 2598960).toFinset ∧
    sortedKeys t = List.range 2598960 ∧
    (∀ k, k < 2598960 → ∃ z : List Nat, z.Sorted (· < ·) ∧ z.length = 5 ∧
      hand_to_index z = k ∧ eval5 t z < 65536 ∧
      leafRecord t k = z ++ packU16 (eval5 t z)) ∧
    (∀ r ∈ leafRecords t, r.length = 7) ∧
    (leafRecords t).length = 2598960 ∧
    (leafData t).length = 18192720 := by
  refine ⟨?_, keys_nodup t, ?_, sortedKeys_eq_range t, ?_, leafRecords_length7 t,
    leafRecords_length t, leafData_length t⟩
  · unfold offsetsList
    rw [List.length_map, length_combinations, List.length_range, choose_52_5]
  · exact List.toFinset_eq_of_perm _ _
      (perm_range_of_nodup (keys_nodup t) (keys_length t) (keys_lt t))
  · intro k hk
    obtain ⟨z, hs, hl, _, hidx, hlook⟩ := offsets_lookup t hk
    refine ⟨z, hs, hl, hidx, eval5_lt h16 z, ?_⟩
    unfold leafRecord
    rw [hlook]

theorem C2_witness :
    sortedKeys ⟨fun _ => 1, fun _ => 1, fun _ => 0, fun _ => 1⟩ =
      List.range 2598960 ∧
    (leafData ⟨fun _ => 1, fun _ => 1, fun _ => 0, fun _ => 1⟩).length = 18192720 :=
  ⟨(C2_leaf_dataset _ ⟨fun _ => (by decide : (1:Nat) < 65536), fun _ => (by decide : (1:Nat) < 65536),
      fun _ => (by decide : (1:Nat) < 65536)⟩).2.2.2.1,
    (C2_leaf_dataset _ ⟨fun _ => (by decide : (1:Nat) < 65536), fun _ => (by decide : (1:Nat) < 65536),
      fun _ => (by decide : (1:Nat) < 65536)⟩).2.2.2.2.2.2.2⟩

/-- C4: on an odd-width level, the final unpaired node is hashed with a
32-byte filler that is the level number repeated 32 times, so level 0's
filler differs from level 1's (and any two distinct levels' fillers
differ); pairing is of adjacent nodes left to right, the next level has
`⌈width/2⌉` nodes, and the construction always reaches exactly one root on
any nonempty leaf list. -/
theorem C4_merkle_padding (H : List Nat → List Nat) :
    (∀ i j : Nat, i < 256 → j < 256 → i ≠ j → filler i ≠ filler j) ∧
    filler 0 ≠ filler 1 ∧
    (∀ lvl (level : List (List Nat)) (x : List Nat), level.length % 2 = 1 →
      level.getLast? = some x →
      (pairUp H lvl level).getLast? = some (H (x ++ filler lvl))) ∧
    (∀ lvl (level : List (List Nat)) (i : Nat), 2 * i + 1 < level.length →
      (pairUp H lvl level)[i]? =
        some (H ((level[2 * i]?.getD []) ++ (level[2 * i + 1]?.getD [])))) ∧
    (∀ lvl (level : List (List Nat)),
      (pairUp H lvl level).length = (level.length + 1) / 2) ∧
    (∀ level : List (List Nat), level ≠ [] → ∃ r, merkleRoot H level = some r) :=
  ⟨fun _ _ _ _ hne => filler_inj hne, filler_inj (by decide),
    pairUp_odd_last H, pairUp_pairs H,
    fun lvl level => pairUp_length H lvl level,
    fun _ hne => merkleRoot_some H hne⟩

theorem C4_witness :
    filler 0 ≠ filler 1 ∧
    (pairUp (fun w => w) 0 [[5], [6], [7]]).getLast? = some ([7] ++ filler 0) ∧
    (pairUp (fun w => w) 0 [[5], [6], [7]])[0]? =
      some ((([[5], [6], [7]] : List (List Nat))[0]?.getD []) ++
        (([[5], [6], [7]] : List (List Nat))[1]?.getD [])) ∧
    (pairUp (fun w => w) 0 [[5], [6], [7]]).length = 2 ∧
    (∃ r, merkleRoot (fun w => w) [[5], [6], [7]] = some r) :=
  ⟨(C4_merkle_padding (fun w => w)).1 0 1 (by decide) (by decide) (by decide),
    (C4_merkle_padding (fun w => w)).2.2.1 0 [[5], [6], [7]] [7] (by decide) rfl,
    (C4_merkle_padding (fun w => w)).2.2.2.1 0 [[5], [6], [7]] 0 (by decide),
    (C4_merkle_padding (fun w => w)).2.2.2.2.1 0 [[5], [6], [7]],
    (C4_merkle_padding (fun w => w)).2.2.2.2.2 [[5], [6], [7]] (by decide)⟩

/-- C6: the pipeline is deterministic — the bytes of `scores.leaf` and
`scores.preflop` and the Merkle root are functions of the hash and the
supplied tables alone, and equal leaf sequences give equal roots. -/
theorem C6_determinism (H H' : List Nat → List Nat) (t t' : PokerData)
    (hH : H = H') (ht : t = t') :
    leafData t = leafData t' ∧ preflopData t = preflopData t' ∧
    merkleRoot H (merkleLeaves H t) = merkleRoot H' (merkleLeaves H' t') ∧
    (∀ leaves leaves' : List (List Nat), leaves = leaves' →
      merkleRoot H leaves = merkleRoot H' leaves') := by
  subst hH
  subst ht
  exact ⟨rfl, rfl, rfl, fun a b h => by rw [h]⟩

theorem C6_witness :
    leafData ⟨fun _ => 1, fun _ => 1, fun _ => 0, fun _ => 1⟩ =
      leafData ⟨fun _ => 1, fun _ => 1, fun _ => 0, fun _ => 1⟩ :=
  (C6_determinism (fun w => w) (fun w => w) _ _ rfl rfl).1

/-- C5: exactly 1326 pre-flop records are produced, keyed by the ascending
2-card combinatorial indices `0..1325`; for each pair of distinct cards the
record's min (resp. max) field is the smallest (resp. largest) score among
all evaluated 5-card hands containing both cards, and
min ≤ ceiling-mean ≤ max. -/
theorem C5_preflop_bounds (t : PokerData) (h16 : tables16 t) :
    ((preflopList t).length = 1326 ∧ preflopSortedKeys t = List.range 1326) ∧
    ∀ h0 h1 : Nat, h0 < 52 → h1 < 52 → h0 ≠ h1 →
      ∀ la lb lc ld : Nat, preflopScan t h0 h1 = (la, lb, lc, ld) →
        (lc ∈ matchScores t h0 h1 ∧ ∀ s ∈ matchScores t h0 h1, lc ≤ s) ∧
        (ld ∈ matchScores t h0 h1 ∧ ∀ s ∈ matchScores t h0 h1, s ≤ ld) ∧
        lc ≤ ceilDiv la lb ∧ ceilDiv la lb ≤ ld := by
  refine ⟨⟨preflop_length t, preflopSortedKeys_eq_range t⟩, ?_⟩
  intro h0 h1 hh0 hh1 hnej la lb lc ld hscan
  have hms := hscan.symm.trans (preflopScan_eq t h0 h1)
  rw [Prod.mk.injEq, Prod.mk.injEq, Prod.mk.injEq] at hms
  obtain ⟨ha, hb, hc, hd⟩ := hms
  have hlen : (matchScores t h0 h1).length = 19600 := matchScores_length hh0 hh1 hnej
  have hne' : matchScores t h0 h1 ≠ [] := by
    intro h
    rw [h] at hlen
    simp at hlen
  have hsent : ∀ s ∈ matchScores t h0 h1, s < 0xFFFFFF := by
    intro s hs
    obtain ⟨hand, _, rfl⟩ := matchScores_mem hs
    have := eval5_lt h16 hand
    omega
  have hmin := foldl_min_mem hne' hsent
  rw [← hc] at hmin
  have hmax := foldl_max_mem hne'
  rw [← hd] at hmax
  have hlbpos : 0 < lb := by rw [hb, hlen]; omega
  refine ⟨hmin, hmax, ?_, ?_⟩
  · have h1' : (matchScores t h0 h1).length * lc ≤ (matchScores t h0 h1).sum :=
      length_mul_le_sum _ lc hmin.2
    rw [← ha, ← hb] at h1'
    have h2' : lc * lb ≤ la := by rw [Nat.mul_comm]; exact h1'
    unfold ceilDiv
    rw [Nat.le_div_iff_mul_le hlbpos]
    omega
  · have h1' : (matchScores t h0 h1).sum ≤ (matchScores t h0 h1).length * ld :=
      sum_le_length_mul _ ld hmax.2
    rw [← ha, ← hb] at h1'
    have h2' : la ≤ ld * lb := by rw [Nat.mul_comm ld lb]; exact h1'
    have hdiv : ceilDiv la lb < ld + 1 := by
      unfold ceilDiv
      rw [Nat.div_lt_iff_lt_mul hlbpos]
      have hx : (ld + 1) * lb = ld * lb + lb := by ring
      omega
    omega

theorem C5_witness :
    (preflopList ⟨fun _ => 1, fun _ => 1, fun _ => 0, fun _ => 1⟩).length = 1326 ∧
    (preflopScan ⟨fun _ => 1, fun _ => 1, fun _ => 0, fun _ => 1⟩ 0 1).2.2.1 ∈
      matchScores ⟨fun _ => 1, fun _ => 1, fun _ => 0, fun _ => 1⟩ 0 1 :=
  ⟨(C5_preflop_bounds _ ⟨fun _ => (by decide : (1:Nat) < 65536), fun _ => (by decide : (1:Nat) < 65536),
      fun _ => (by decide : (1:Nat) < 65536)⟩).1.1,
    (((C5_preflop_bounds _ ⟨fun _ => (by decide : (1:Nat) < 65536), fun _ => (by decide : (1:Nat) < 65536),
      fun _ => (by decide : (1:Nat) < 65536)⟩).2 0 1 (by decide) (by decide) (by decide)
      (preflopScan ⟨fun _ => 1, fun _ => 1, fun _ => 0, fun _ => 1⟩ 0 1).1
      (preflopScan ⟨fun _ => 1, fun _ => 1, fun _ => 0, fun _ => 1⟩ 0 1).2.1
      (preflopScan ⟨fun _ => 1, fun _ => 1, fun _ => 0, fun _ => 1⟩ 0 1).2.2.1
      (preflopScan ⟨fun _ => 1, fun _ => 1, fun _ => 0, fun _ => 1⟩ 0 1).2.2.2
      (prod4_eta (preflopScan ⟨fun _ => 1, fun _ => 1, fun _ => 0, fun _ => 1⟩ 0 1))).1).1⟩

/-- C10: for every pair of distinct card ordinals the superset filter
matches exactly `C(50,3) = 19600` of the evaluated hands, so the count `lb`
is positive and `ceil(la/lb)` is well defined; the min accumulator
(initialised to the `0xFFFFFF` sentinel) is always overwritten by a genuine
score in `[1, 7462]`, and the min, max and ceiling-mean fields all fit the
16-bit little-endian encoding. -/
theorem C10_preflop_wellformed (t : PokerData) (hr : tablesScoreRange t)
    (h0 h1 : Nat) (hh0 : h0 < 52) (hh1 : h1 < 52) (hnej : h0 ≠ h1) :
    ∀ la lb lc ld : Nat, preflopScan t h0 h1 = (la, lb, lc, ld) →
      lb = 19600 ∧ 0 < lb ∧
      lc ∈ matchScores t h0 h1 ∧ 1 ≤ lc ∧ lc ≤ 7462 ∧ lc ≠ 0xFFFFFF ∧
      1 ≤ ld ∧ ld ≤ 7462 ∧ ceilDiv la lb ≤ 7462 ∧
      lc < 65536 ∧ ld < 65536 ∧ ceilDiv la lb < 65536 := by
  intro la lb lc ld hscan
  have hms := hscan.symm.trans (preflopScan_eq t h0 h1)
  rw [Prod.mk.injEq, Prod.mk.injEq, Prod.mk.injEq] at hms
  obtain ⟨ha, hb, hc, hd⟩ := hms
  have hlen : (matchScores t h0 h1).length = 19600 := matchScores_length hh0 hh1 hnej
  have hlb : lb = 19600 := by rw [hb, hlen]
  have hne' : matchScores t h0 h1 ≠ [] := by
    intro h
    rw [h] at hlen
    simp at hlen
  have hrange : ∀ s ∈ matchScores t h0 h1, 1 ≤ s ∧ s ≤ 7462 := by
    intro s hs
    obtain ⟨hand, hmem, rfl⟩ := matchScores_mem hs
    exact eval5_range hr (mem_combinations_range hmem).2.1
  have hsent : ∀ s ∈ matchScores t h0 h1, s < 0xFFFFFF := by
    intro s hs
    have := hrange s hs
    omega
  have hmin := foldl_min_mem hne' hsent
  rw [← hc] at hmin
  have hmax := foldl_max_mem hne'
  rw [← hd] at hmax
  have hlc := hrange lc hmin.1
  have hld := hrange ld hmax.1
  have hlbpos : 0 < lb := by omega
  have h1' : (matchScores t h0 h1).sum ≤ (matchScores t h0 h1).length * ld :=
    sum_le_length_mul _ ld hmax.2
  rw [← ha, ← hb] at h1'
  have h2' : la ≤ ld * lb := by rw [Nat.mul_comm ld lb]; exact h1'
  have hdiv : ceilDiv la lb < ld + 1 := by
    unfold ceilDiv
    rw [Nat.div_lt_iff_lt_mul hlbpos]
    have hx : (ld + 1) * lb = ld * lb + lb := by ring
    omega
  exact ⟨hlb, by omega, hmin.1, hlc.1, hlc.2, by omega, hld.1, hld.2, by omega,
    by omega, by omega, by omega⟩

theorem C10_witness :
    (preflopScan ⟨fun _ => 1, fun _ => 0, fun _ => 0, fun _ => 1⟩ 0 1).2.1 = 19600 :=
  ((C10_preflop_wellformed ⟨fun _ => 1, fun _ => 0, fun _ => 0, fun _ => 1⟩
    ⟨fun _ => (by decide : 1 ≤ (1:Nat) ∧ (1:Nat) ≤ 7462), fun _ h => absurd rfl h,
      fun _ => (by decide : 1 ≤ (1:Nat) ∧ (1:Nat) ≤ 7462)⟩
    0 1 (by decide) (by decide) (by decide))
    (preflopScan ⟨fun _ => 1, fun _ => 0, fun _ => 0, fun _ => 1⟩ 0 1).1
    (preflopScan ⟨fun _ => 1, fun _ => 0, fun _ => 0, fun _ => 1⟩ 0 1).2.1
    (preflopScan ⟨fun _ => 1, fun _ => 0, fun _ => 0, fun _ => 1⟩ 0 1).2.2.1
    (preflopScan ⟨fun _ => 1, fun _ => 0, fun _ => 0, fun _ => 1⟩ 0 1).2.2.2
    (prod4_eta (preflopScan ⟨fun _ => 1, fun _ => 0, fun _ => 0, fun _ => 1⟩ 0 1))).1

end Genset
